import Mathlib

/-!
Verification of the guest MMU of a RISC-V emulator written in Go.

The definitions below are a shallow embedding of the Go source
(the `Mmu` struct and its methods from the mmu source file:
`NewMmu`, `fork`, `set_permission`, `reset`, `allocate`, `write_from`,
`read_into_perms`, `read_into`).

Modelling conventions:
* Go `uint` (64-bit) values are `Nat`; arithmetic that can wrap in Go is
  written with an explicit `% WORD` where `WORD = 2 ^ 64`.
* The two arenas `memory []uint8` / `permissions []Perm` are modelled as
  total functions `Nat → Nat` together with the explicit length field
  `arena_size`; every access the Go code performs is bounds-checked
  before the index is used, so only values below `arena_size` matter.
* Go `panic`s (both the explicit ones and the runtime panics raised by
  out-of-range slice bounds or indices) become `Except.error` results.
  For mutating operations, the error carries the memory state at the
  moment of the panic, so that claims about side effects of failing
  operations are expressible.
-/

/-- Host word cardinality: Go `uint` arithmetic is modulo `2 ^ 64`. -/
def WORD : Nat := 2 ^ 64

/-- Permission bit `PERM_READ = 1 << 0`. -/
def PERM_READ : Nat := 1

/-- Permission bit `PERM_WRITE = 1 << 1`. -/
def PERM_WRITE : Nat := 2

/-- Permission bit `PERM_EXEC = 1 << 2`. -/
def PERM_EXEC : Nat := 4

/-- Permission bit `PERM_RAW = 1 << 3`. -/
def PERM_RAW : Nat := 8

/-- `DIRTY_BLOCK_SIZE`, the dirty-tracking block size. -/
def DIRTY_BLOCK_SIZE : Nat := 4096

/-- Error kinds: one constructor per Go panic site reachable from the
MMU operations.  The first seven correspond to explicit `panic` calls,
the last two to Go runtime panics (bad slice bounds / index). -/
inductive MErr where
  | oobWrite      -- "Operation would write OOB of guest address space"
  | unallocWrite  -- "Operation would write beyond it's allocation"
  | bufSmall      -- "bytes to write from buffer is greater than size of buffer"
  | writeDenied   -- "Write permission denied"
  | oobPerm       -- "Request would set permissions OOB of guest address space"
  | oobAlloc      -- "allocation would go beyond the guest address space"
  | oobRead       -- "Operation would read OOB of guest address space"
  | readDenied    -- "Read permission denied"
  | sliceBounds   -- runtime: slice bounds out of range
  | indexRange    -- runtime: index out of range
deriving DecidableEq, Repr

/-- The MMU state (Go struct `Mmu`). -/
structure Mmu where
  arena_size : Nat
  memory : Nat → Nat
  permissions : Nat → Nat
  dirty : List Nat
  dirty_bitmap : List Nat
  cur_alc : Nat

/-- `NewMmu(size)`: zero memory and permissions, empty dirty tracker,
`cur_alc = 0x10000`. -/
def NewMmu (size : Nat) : Mmu where
  arena_size := size
  memory := fun _ => 0
  permissions := fun _ => 0
  dirty := []
  dirty_bitmap := List.replicate ((size / DIRTY_BLOCK_SIZE) / 64 + 1) 0
  cur_alc := 0x10000

/-- `Mmu.fork`: a fresh arena of the same size, memory and permissions
copied byte by byte, `cur_alc` copied, dirty tracker empty. -/
def Mmu.fork (m : Mmu) : Mmu where
  arena_size := m.arena_size
  memory := fun v => if v < m.arena_size then m.memory v else 0
  permissions := fun v => if v < m.arena_size then m.permissions v else 0
  dirty := []
  dirty_bitmap := List.replicate ((m.arena_size / DIRTY_BLOCK_SIZE) / 64 + 1) 0
  cur_alc := m.cur_alc

/-- `Mmu.set_permission(addr, size, perm)`: bounds check with Go's
wrapping sum, then overwrite `permissions[addr .. addr+size)`.
When the wrapped end is at or below `addr` the Go loop body never runs,
which the interval condition reproduces. -/
def Mmu.set_permission (m : Mmu) (addr size perm : Nat) :
    Except (MErr × Mmu) Mmu :=
  let endp := (addr + size) % WORD
  if endp > m.arena_size then
    .error (.oobPerm, m)
  else
    .ok { m with
      permissions := fun v =>
        if addr ≤ v ∧ v < endp then perm else m.permissions v }

/-- `Mmu.allocate(size)`: 16-byte align the size (with Go wrapping),
bounds check, bump `cur_alc`, then `set_permission(base, size, RAW|WRITE)`.
Note the unaligned `size` in the permission call.  `cur_alc` is bumped
before the permission call, as in the source. -/
def Mmu.allocate (m : Mmu) (size : Nat) : Except (MErr × Mmu) (Nat × Mmu) :=
  let align_size := ((size + 0xf) % WORD) &&& (WORD - 0x10)
  let base := m.cur_alc
  if (base + align_size) % WORD ≥ m.arena_size then
    .error (.oobAlloc, m)
  else
    let m1 : Mmu := { m with cur_alc := (m.cur_alc + align_size) % WORD }
    match m1.set_permission base size (PERM_RAW ||| PERM_WRITE) with
    | .error e => .error e
    | .ok m2 => .ok (base, m2)

/-- One iteration of the dirty-marking loop in `write_from`.  The Go
code computes `idx` and `bit` from `block_start` — not from the loop
variable `block` — which this definition reproduces faithfully. -/
def markStep (block_start : Nat) (st : List Nat × List Nat) (block : Nat) :
    Except MErr (List Nat × List Nat) :=
  if block_start / 64 ≥ st.2.length then
    .error .indexRange
  else if (st.2.getD (block_start / 64) 0) &&& (1 <<< (block_start % 64)) = 0 then
    .ok (st.1 ++ [block], st.2.set (block_start / 64)
      ((st.2.getD (block_start / 64) 0) ||| (1 <<< (block_start % 64))))
  else
    .ok st

/-- The dirty-marking loop of `write_from`, folded over the block range. -/
def markFold (block_start : Nat) (st : List Nat × List Nat) :
    List Nat → Except MErr (List Nat × List Nat)
  | [] => .ok st
  | b :: bs =>
    match markStep block_start st b with
    | .error e => .error e
    | .ok st' => markFold block_start st' bs

/-- The block range `[block_start, block_end]` (inclusive, as in the Go
loop `for block := block_start; block < block_end+1; block++`), with
`block_end = (addr + len(buf)) / DIRTY_BLOCK_SIZE` — the source uses
`len(buf)` here, not `size`, and no `- 1`. -/
def blocksOf (addr buflen : Nat) : List Nat :=
  let block_start := addr / DIRTY_BLOCK_SIZE
  let block_end := ((addr + buflen) % WORD) / DIRTY_BLOCK_SIZE
  (List.range (block_end + 1 - block_start)).map fun j => block_start + j

/-- `Mmu.write_from(addr, buf, size)`: the three explicit checks, the
slice-bounds check implied by `m.permissions[addr : addr+size]`, the
permission scan (recording `has_raw`), the byte copy, the dirty-marking
loop over `[addr/B, (addr+len(buf))/B]`, and the RAW→READ promotion. -/
def Mmu.write_from (m : Mmu) (addr : Nat) (buf : List Nat) (size : Nat) :
    Except (MErr × Mmu) Mmu :=
  let endw := (addr + size) % WORD
  if endw > m.arena_size then
    .error (.oobWrite, m)
  else if endw > m.cur_alc then
    .error (.unallocWrite, m)
  else if size > buf.length then
    .error (.bufSmall, m)
  else if endw < addr then
    .error (.sliceBounds, m)
  else if ¬ (∀ i < endw - addr, (m.permissions (addr + i)) &&& PERM_WRITE ≠ 0) then
    .error (.writeDenied, m)
  else
    let mem' := fun v =>
      if addr ≤ v ∧ v < endw then buf.getD (v - addr) 0 else m.memory v
    match markFold (addr / DIRTY_BLOCK_SIZE) (m.dirty, m.dirty_bitmap)
        (blocksOf addr buf.length) with
    | .error e => .error (e, { m with memory := mem' })
    | .ok st =>
      let perms' :=
        if ∃ i < endw - addr, (m.permissions (addr + i)) &&& PERM_RAW ≠ 0 then
          fun v =>
            if (addr ≤ v ∧ v < endw) ∧ (m.permissions v) &&& PERM_RAW ≠ 0
            then (m.permissions v) ||| PERM_READ
            else m.permissions v
        else m.permissions
      .ok { m with
        memory := mem'
        permissions := perms'
        dirty := st.1
        dirty_bitmap := st.2 }

/-- `Mmu.read_into_perms(addr, buf, exp_perms)`: bounds check, the
slice-bounds check, the per-byte check `perm &&& exp_perms ≠ 0`
(any-bit semantics, as in the source), then the byte copy out.
The commented-out allocation-bound check of the source is absent.
The filled buffer is returned. -/
def Mmu.read_into_perms (m : Mmu) (addr buflen exp_perms : Nat) :
    Except MErr (List Nat) :=
  let endr := (addr + buflen) % WORD
  if endr > m.arena_size then
    .error .oobRead
  else if endr < addr then
    .error .sliceBounds
  else if ¬ (∀ i < endr - addr, (m.permissions (addr + i)) &&& exp_perms ≠ 0) then
    .error .readDenied
  else
    .ok ((List.range (endr - addr)).map fun i => m.memory (addr + i))

/-- `Mmu.read_into(addr, buf)`: `read_into_perms` with `PERM_READ`. -/
def Mmu.read_into (m : Mmu) (addr buflen : Nat) : Except MErr (List Nat) :=
  m.read_into_perms addr buflen PERM_READ

/-- One iteration of the `reset` loop: zero the bitmap word of the
block, then copy the block's memory and permission bytes from the
parent.  The bitmap word is zeroed before the copies, as in the source,
so the error state of a bad slice keeps the zeroed word. -/
def resetStep (orig : Mmu) (s : Mmu) (block : Nat) : Except (MErr × Mmu) Mmu :=
  if block / 64 ≥ s.dirty_bitmap.length then
    .error (.indexRange, s)
  else if (block * DIRTY_BLOCK_SIZE) % WORD > ((block + 1) * DIRTY_BLOCK_SIZE) % WORD
      ∨ ((block + 1) * DIRTY_BLOCK_SIZE) % WORD > s.arena_size
      ∨ ((block + 1) * DIRTY_BLOCK_SIZE) % WORD > orig.arena_size then
    .error (.sliceBounds, { s with dirty_bitmap := s.dirty_bitmap.set (block / 64) 0 })
  else
    .ok { s with
      dirty_bitmap := s.dirty_bitmap.set (block / 64) 0
      memory := fun v =>
        if (block * DIRTY_BLOCK_SIZE) % WORD ≤ v ∧
            v < ((block + 1) * DIRTY_BLOCK_SIZE) % WORD
        then orig.memory v else s.memory v
      permissions := fun v =>
        if (block * DIRTY_BLOCK_SIZE) % WORD ≤ v ∧
            v < ((block + 1) * DIRTY_BLOCK_SIZE) % WORD
        then orig.permissions v else s.permissions v }

/-- The `reset` loop folded over the dirty list. -/
def resetFold (orig : Mmu) (s : Mmu) : List Nat → Except (MErr × Mmu) Mmu
  | [] => .ok s
  | b :: bs =>
    match resetStep orig s b with
    | .error e => .error e
    | .ok s' => resetFold orig s' bs

/-- `Mmu.reset(orig_mmu)`: restore every block in the dirty list from
the parent, then truncate the dirty list. -/
def Mmu.reset (m orig : Mmu) : Except (MErr × Mmu) Mmu :=
  match resetFold orig m m.dirty with
  | .error e => .error e
  | .ok s => .ok { s with dirty := [] }

/-- `write(addr, buf)` as the callers use it:
`write_from(addr, buf, len(buf))`. -/
def Mmu.write (m : Mmu) (addr : Nat) (buf : List Nat) :
    Except (MErr × Mmu) Mmu :=
  m.write_from addr buf buf.length

/-- Extract the state of a successful mutating operation
(default otherwise); used to build concrete states in examples. -/
def exGet (d : Mmu) : Except (MErr × Mmu) Mmu → Mmu
  | .ok m => m
  | .error _ => d

/-- Extract the state of a successful allocation (default otherwise). -/
def exGetA (d : Mmu) : Except (MErr × Mmu) (Nat × Mmu) → Mmu
  | .ok p => p.2
  | .error _ => d

/-!
### The dirty-tracker correspondence

`bitSet bm b` says bit `b % 64` of word `b / 64` of the packed bitmap is
set (an out-of-range word reads as `0`, hence no bit).  `dirtyInv` is the
spec's two-sided correspondence between the dirty list and the bitmap.
-/

/-- Bit `b` of the packed dirty bitmap is set. -/
def bitSet (bm : List Nat) (b : Nat) : Prop :=
  (bm.getD (b / 64) 0) &&& (1 <<< (b % 64)) ≠ 0

instance (bm : List Nat) (b : Nat) : Decidable (bitSet bm b) := by
  unfold bitSet; infer_instance

/-- The dirty list and the dirty bitmap agree, and the list has no
duplicates (each block appears exactly once). -/
def dirtyInv (m : Mmu) : Prop :=
  m.dirty.Nodup ∧ ∀ b : Nat, b ∈ m.dirty ↔ bitSet m.dirty_bitmap b

theorem and_pow_ne_zero (w i : Nat) : w &&& 2 ^ i ≠ 0 ↔ w.testBit i := by
  rw [Nat.and_two_pow]
  cases h : w.testBit i
  · simp
  · simp

theorem and_shift_ne_zero (w i : Nat) : w &&& (1 <<< i) ≠ 0 ↔ w.testBit i := by
  rw [Nat.one_shiftLeft]
  exact and_pow_ne_zero w i

theorem getD_set_self (l : List Nat) (i v : Nat) (h : i < l.length) :
    (l.set i v).getD i 0 = v := by
  simp [List.getD, List.getElem?_set_self, h]

theorem getD_set_ne (l : List Nat) (i j v : Nat) (h : i ≠ j) :
    (l.set i v).getD j 0 = l.getD j 0 := by
  simp [List.getD, List.getElem?_set_ne h]

theorem getD_replicate_zero (k i : Nat) : (List.replicate k 0).getD i 0 = 0 := by
  rcases Nat.lt_or_ge i k with h | h
  · simp [List.getD, List.getElem?_replicate, h]
  · exact List.getD_eq_default _ _ (by simpa using h)

theorem bitSet_replicate_zero (k b : Nat) : ¬ bitSet (List.replicate k 0) b := by
  simp [bitSet, getD_replicate_zero]

/-- Setting `bs`'s bit in word `bs / 64` marks exactly `bs` in addition
to what was marked before. -/
theorem bitSet_set_or (bm : List Nat) (bs : Nat) (h : bs / 64 < bm.length)
    (b : Nat) :
    bitSet (bm.set (bs / 64) ((bm.getD (bs / 64) 0) ||| (1 <<< (bs % 64)))) b ↔
      bitSet bm b ∨ b = bs := by
  by_cases hb : b / 64 = bs / 64
  · simp only [bitSet, Nat.one_shiftLeft, hb, getD_set_self _ _ _ h,
      and_pow_ne_zero, Nat.testBit_or, Nat.testBit_two_pow]
    constructor
    · intro hor
      rcases Bool.or_eq_true_iff.mp hor with h1 | h1
      · exact Or.inl h1
      · refine Or.inr ?_
        have h2 : bs % 64 = b % 64 := of_decide_eq_true h1
        have h3 := Nat.div_add_mod b 64
        have h4 := Nat.div_add_mod bs 64
        omega
    · intro hor
      rcases hor with h1 | h1
      · exact Bool.or_eq_true_iff.mpr (Or.inl h1)
      · subst h1
        exact Bool.or_eq_true_iff.mpr (Or.inr (by simp))
  · simp only [bitSet, Nat.one_shiftLeft, getD_set_ne _ _ _ _ (fun hh => hb hh.symm)]
    constructor
    · exact fun hh => Or.inl hh
    · intro hor
      rcases hor with h1 | h1
      · exact h1
      · exfalso
        apply hb
        rw [h1]

theorem getD_ne_zero_lt (l : List Nat) (i : Nat) (h : l.getD i 0 ≠ 0) :
    i < l.length := by
  by_contra hc
  exact h (List.getD_eq_default _ _ (Nat.le_of_not_lt hc))

/-- If `block_start`'s bit is already set, the whole marking loop is a
no-op (the loop only ever consults that one bit). -/
theorem markFold_of_set (bs : Nat) (st : List Nat × List Nat) (L : List Nat)
    (h : (st.2.getD (bs / 64) 0) &&& (1 <<< (bs % 64)) ≠ 0) :
    markFold bs st L = .ok st := by
  induction L with
  | nil => rfl
  | cons b rest ih =>
    have hne : st.2.getD (bs / 64) 0 ≠ 0 := fun hz => h (by rw [hz]; simp)
    have hlt : bs / 64 < st.2.length := getD_ne_zero_lt _ _ hne
    have hstep : markStep bs st b = .ok st := by
      unfold markStep
      rw [if_neg (Nat.not_le.mpr hlt), if_neg h]
    unfold markFold
    rw [hstep]
    exact ih

/-- If `block_start`'s bit is clear and its word exists, the loop
appends exactly the first block of the range and sets the bit. -/
theorem markFold_of_clear (bs : Nat) (st : List Nat × List Nat) (b : Nat)
    (L : List Nat) (hlt : bs / 64 < st.2.length)
    (h : (st.2.getD (bs / 64) 0) &&& (1 <<< (bs % 64)) = 0) :
    markFold bs st (b :: L) = .ok (st.1 ++ [b], st.2.set (bs / 64)
      ((st.2.getD (bs / 64) 0) ||| (1 <<< (bs % 64)))) := by
  have hstep : markStep bs st b = .ok (st.1 ++ [b], st.2.set (bs / 64)
      ((st.2.getD (bs / 64) 0) ||| (1 <<< (bs % 64)))) := by
    unfold markStep
    rw [if_neg (Nat.not_le.mpr hlt), if_pos h]
  unfold markFold
  rw [hstep]
  apply markFold_of_set
  show ((st.2.set (bs / 64) _).getD (bs / 64) 0) &&& _ ≠ 0
  rw [getD_set_self _ _ _ hlt, and_shift_ne_zero, Nat.one_shiftLeft,
    Nat.testBit_or, Nat.testBit_two_pow]
  simp

/-- Inversion for a successful marking loop: either nothing changed (the
range was empty or the bit was set), or the head block was appended and
the bit of `block_start` set. -/
theorem markFold_ok_cases (bs : Nat) (st st' : List Nat × List Nat)
    (L : List Nat) (h : markFold bs st L = .ok st') :
    (st' = st ∧ (L = [] ∨ bitSet st.2 bs)) ∨
    (∃ b rest, L = b :: rest ∧ ¬ bitSet st.2 bs ∧ bs / 64 < st.2.length ∧
      st' = (st.1 ++ [b], st.2.set (bs / 64)
        ((st.2.getD (bs / 64) 0) ||| (1 <<< (bs % 64))))) := by
  cases L with
  | nil =>
    left
    refine ⟨?_, Or.inl rfl⟩
    unfold markFold at h
    exact ((Except.ok.injEq _ _).mp h.symm)
  | cons b rest =>
    by_cases hb : bitSet st.2 bs
    · left
      rw [markFold_of_set bs st _ hb] at h
      exact ⟨((Except.ok.injEq _ _).mp h).symm, Or.inr hb⟩
    · right
      have hz : (st.2.getD (bs / 64) 0) &&& (1 <<< (bs % 64)) = 0 := by
        by_contra hc
        exact hb hc
      by_cases hlt : bs / 64 < st.2.length
      · rw [markFold_of_clear bs st b rest hlt hz] at h
        exact ⟨b, rest, rfl, hb, hlt, ((Except.ok.injEq _ _).mp h).symm⟩
      · exfalso
        unfold markFold markStep at h
        rw [if_pos (Nat.le_of_not_lt hlt)] at h
        exact Except.noConfusion h

/-- Inversion of a successful `write_from`: all checks passed and the
result is the source's update of memory, permissions and dirty tracker. -/
theorem write_from_ok_elim {m : Mmu} {addr size : Nat} {buf : List Nat}
    {m' : Mmu} (h : m.write_from addr buf size = .ok m') :
    (addr + size) % WORD ≤ m.arena_size ∧
    (addr + size) % WORD ≤ m.cur_alc ∧
    size ≤ buf.length ∧
    addr ≤ (addr + size) % WORD ∧
    (∀ i < (addr + size) % WORD - addr,
      (m.permissions (addr + i)) &&& PERM_WRITE ≠ 0) ∧
    ∃ st, markFold (addr / DIRTY_BLOCK_SIZE) (m.dirty, m.dirty_bitmap)
        (blocksOf addr buf.length) = .ok st ∧
      m' = { m with
        memory := fun v => if addr ≤ v ∧ v < (addr + size) % WORD
          then buf.getD (v - addr) 0 else m.memory v
        permissions :=
          if ∃ i < (addr + size) % WORD - addr,
              (m.permissions (addr + i)) &&& PERM_RAW ≠ 0 then
            fun v =>
              if (addr ≤ v ∧ v < (addr + size) % WORD) ∧
                  (m.permissions v) &&& PERM_RAW ≠ 0
              then (m.permissions v) ||| PERM_READ
              else m.permissions v
          else m.permissions
        dirty := st.1
        dirty_bitmap := st.2 } := by
  simp only [Mmu.write_from] at h
  split_ifs at h with h1 h2 h3 h4 h5 h6
  · rw [if_pos h6]
    split at h
    · exact absurd h (by simp)
    · next st heq =>
      refine ⟨Nat.le_of_not_lt h1, Nat.le_of_not_lt h2, Nat.le_of_not_lt h3,
        Nat.le_of_not_lt h4, h5, st, heq, ?_⟩
      injection h with h7
      exact h7.symm
  · rw [if_neg h6]
    split at h
    · exact absurd h (by simp)
    · next st heq =>
      refine ⟨Nat.le_of_not_lt h1, Nat.le_of_not_lt h2, Nat.le_of_not_lt h3,
        Nat.le_of_not_lt h4, h5, st, heq, ?_⟩
      injection h with h7
      exact h7.symm

/-- The block range is empty or starts at `block_start`. -/
theorem blocksOf_head (addr buflen : Nat) :
    blocksOf addr buflen = [] ∨
    ∃ rest, blocksOf addr buflen = (addr / DIRTY_BLOCK_SIZE) :: rest := by
  simp only [blocksOf]
  cases hk : ((addr + buflen) % WORD) / DIRTY_BLOCK_SIZE + 1 -
      addr / DIRTY_BLOCK_SIZE with
  | zero => left; rfl
  | succ k =>
    right
    refine ⟨(List.range k).map (fun j => addr / DIRTY_BLOCK_SIZE + (j + 1)), ?_⟩
    rw [List.range_succ_eq_map, List.map_cons, List.map_map]
    rfl

/-- When the wrapped end does not fall below `addr`, the block range is
nonempty and starts at `block_start`. -/
theorem blocksOf_cons_of_le (addr buflen : Nat)
    (h : addr ≤ (addr + buflen) % WORD) :
    ∃ rest, blocksOf addr buflen = (addr / DIRTY_BLOCK_SIZE) :: rest := by
  rcases blocksOf_head addr buflen with hnil | hc
  · exfalso
    simp only [blocksOf, List.map_eq_nil_iff, List.range_eq_nil] at hnil
    have hbs : addr / DIRTY_BLOCK_SIZE ≤ ((addr + buflen) % WORD) / DIRTY_BLOCK_SIZE :=
      Nat.div_le_div_right h
    omega
  · exact hc

/-- A successful `write_from` either leaves the dirty tracker unchanged
(empty block range, or `block_start` already marked) or appends exactly
`block_start` to the dirty list and sets exactly its bit. -/
theorem write_dirty_cases {m : Mmu} {addr size : Nat} {buf : List Nat}
    {m' : Mmu} (h : m.write_from addr buf size = .ok m') :
    (m'.dirty = m.dirty ∧ m'.dirty_bitmap = m.dirty_bitmap ∧
      (blocksOf addr buf.length = [] ∨
        bitSet m.dirty_bitmap (addr / DIRTY_BLOCK_SIZE))) ∨
    (m'.dirty = m.dirty ++ [addr / DIRTY_BLOCK_SIZE] ∧
      ¬ bitSet m.dirty_bitmap (addr / DIRTY_BLOCK_SIZE) ∧
      addr / DIRTY_BLOCK_SIZE / 64 < m.dirty_bitmap.length ∧
      m'.dirty_bitmap = m.dirty_bitmap.set (addr / DIRTY_BLOCK_SIZE / 64)
        ((m.dirty_bitmap.getD (addr / DIRTY_BLOCK_SIZE / 64) 0) |||
         (1 <<< (addr / DIRTY_BLOCK_SIZE % 64)))) := by
  obtain ⟨-, -, -, -, -, st, hmf, hrec⟩ := write_from_ok_elim h
  have hd : m'.dirty = st.1 := by rw [hrec]
  have hbm : m'.dirty_bitmap = st.2 := by rw [hrec]
  rcases markFold_ok_cases _ _ _ _ hmf with ⟨hst, hor⟩ | ⟨b, rest, hL, hbs, hlt, hst⟩
  · left
    rw [hd, hbm, hst]
    exact ⟨rfl, rfl, hor⟩
  · have hb : b = addr / DIRTY_BLOCK_SIZE := by
      rcases blocksOf_head addr buf.length with hnil | ⟨rest2, hc⟩
      · rw [hnil] at hL; cases hL
      · rw [hc] at hL
        injection hL with h1 h2
        exact h1.symm
    right
    subst hb
    rw [hd, hbm, hst]
    exact ⟨rfl, hbs, hlt, rfl⟩

theorem dirtyInv_NewMmu (size : Nat) : dirtyInv (NewMmu size) := by
  refine ⟨List.nodup_nil, fun b => iff_of_false (by simp [NewMmu]) ?_⟩
  show ¬ bitSet (NewMmu size).dirty_bitmap b
  exact bitSet_replicate_zero _ _

theorem dirtyInv_fork (m : Mmu) : dirtyInv m.fork := by
  refine ⟨List.nodup_nil, fun b => iff_of_false (by simp [Mmu.fork]) ?_⟩
  show ¬ bitSet (Mmu.fork m).dirty_bitmap b
  exact bitSet_replicate_zero _ _

/-- `write_from` preserves the dirty-tracker correspondence. -/
theorem dirtyInv_write {m : Mmu} {addr size : Nat} {buf : List Nat}
    {m' : Mmu} (hinv : dirtyInv m) (h : m.write_from addr buf size = .ok m') :
    dirtyInv m' := by
  rcases write_dirty_cases h with ⟨hd, hbm, -⟩ | ⟨hd, hnbs, hlt, hbm⟩
  · exact ⟨hd ▸ hinv.1, fun b => by rw [hd, hbm]; exact hinv.2 b⟩
  · have hnotmem : addr / DIRTY_BLOCK_SIZE ∉ m.dirty :=
      fun hm => hnbs ((hinv.2 _).mp hm)
    constructor
    · rw [hd]
      refine List.Nodup.append hinv.1 (List.nodup_singleton _) ?_
      intro a ha hb
      rw [List.mem_singleton] at hb
      exact hnotmem (hb ▸ ha)
    · intro b
      rw [hd, hbm, bitSet_set_or _ _ hlt, List.mem_append, List.mem_singleton]
      exact or_congr (hinv.2 b) Iff.rfl

/-- Inversion of a successful `set_permission`. -/
theorem set_permission_ok_elim {m : Mmu} {addr size perm : Nat} {m' : Mmu}
    (h : m.set_permission addr size perm = .ok m') :
    (addr + size) % WORD ≤ m.arena_size ∧
    m' = { m with permissions := fun v =>
      if addr ≤ v ∧ v < (addr + size) % WORD then perm
      else m.permissions v } := by
  simp only [Mmu.set_permission] at h
  split_ifs at h with h1
  exact ⟨Nat.le_of_not_lt h1, ((Except.ok.injEq _ _).mp h).symm⟩

/-- A failing `set_permission` reports `OutOfBounds` (of the wrapped
sum) and leaves the state untouched. -/
theorem set_permission_error_elim {m : Mmu} {addr size perm : Nat}
    {e : MErr} {m2 : Mmu}
    (h : m.set_permission addr size perm = .error (e, m2)) :
    e = .oobPerm ∧ m2 = m ∧ (addr + size) % WORD > m.arena_size := by
  simp only [Mmu.set_permission] at h
  split_ifs at h with h1
  injection h with h2
  injection h2 with h3 h4
  exact ⟨h3.symm, h4.symm, h1⟩

/-- Inversion of a successful `allocate`. -/
theorem allocate_ok_elim {m : Mmu} {size base : Nat} {m' : Mmu}
    (h : m.allocate size = .ok (base, m')) :
    base = m.cur_alc ∧
    (m.cur_alc + (((size + 0xf) % WORD) &&& (WORD - 0x10))) % WORD < m.arena_size ∧
    (m.cur_alc + size) % WORD ≤ m.arena_size ∧
    m' = { m with
      cur_alc := (m.cur_alc + (((size + 0xf) % WORD) &&& (WORD - 0x10))) % WORD
      permissions := fun v =>
        if m.cur_alc ≤ v ∧ v < (m.cur_alc + size) % WORD
        then PERM_RAW ||| PERM_WRITE
        else m.permissions v } := by
  simp only [Mmu.allocate] at h
  split_ifs at h with h1
  split at h
  · exact absurd h (by simp)
  · next m2 heq =>
    obtain ⟨hle, hrec⟩ := set_permission_ok_elim heq
    injection h with h2
    injection h2 with h3 h4
    refine ⟨h3.symm, Nat.lt_of_not_le h1, hle, ?_⟩
    rw [← h4, hrec]

theorem dirtyInv_congr {m m' : Mmu} (hd : m'.dirty = m.dirty)
    (hb : m'.dirty_bitmap = m.dirty_bitmap) (h : dirtyInv m) : dirtyInv m' :=
  ⟨hd ▸ h.1, fun b => by rw [hd, hb]; exact h.2 b⟩

theorem dirtyInv_set_permission {m : Mmu} {addr size perm : Nat} {m' : Mmu}
    (hinv : dirtyInv m) (h : m.set_permission addr size perm = .ok m') :
    dirtyInv m' := by
  obtain ⟨-, hrec⟩ := set_permission_ok_elim h
  exact dirtyInv_congr (by rw [hrec]) (by rw [hrec]) hinv

theorem dirtyInv_allocate {m : Mmu} {size base : Nat} {m' : Mmu}
    (hinv : dirtyInv m) (h : m.allocate size = .ok (base, m')) :
    dirtyInv m' := by
  obtain ⟨-, -, -, hrec⟩ := allocate_ok_elim h
  exact dirtyInv_congr (by rw [hrec]) (by rw [hrec]) hinv

/-- Inversion of a successful `resetStep`. -/
theorem resetStep_ok_elim {orig s : Mmu} {b : Nat} {s' : Mmu}
    (h : resetStep orig s b = .ok s') :
    b / 64 < s.dirty_bitmap.length ∧
    (b * DIRTY_BLOCK_SIZE) % WORD ≤ ((b + 1) * DIRTY_BLOCK_SIZE) % WORD ∧
    ((b + 1) * DIRTY_BLOCK_SIZE) % WORD ≤ s.arena_size ∧
    ((b + 1) * DIRTY_BLOCK_SIZE) % WORD ≤ orig.arena_size ∧
    s' = { s with
      dirty_bitmap := s.dirty_bitmap.set (b / 64) 0
      memory := fun v =>
        if (b * DIRTY_BLOCK_SIZE) % WORD ≤ v ∧
            v < ((b + 1) * DIRTY_BLOCK_SIZE) % WORD
        then orig.memory v else s.memory v
      permissions := fun v =>
        if (b * DIRTY_BLOCK_SIZE) % WORD ≤ v ∧
            v < ((b + 1) * DIRTY_BLOCK_SIZE) % WORD
        then orig.permissions v else s.permissions v } := by
  unfold resetStep at h
  split_ifs at h with h1 h2
  push_neg at h2
  exact ⟨Nat.lt_of_not_le h1, h2.1, h2.2.1, h2.2.2,
    ((Except.ok.injEq _ _).mp h).symm⟩

/-- Scalar fields and the dirty list survive the reset loop; the bitmap
keeps its length. -/
theorem resetFold_fields {orig : Mmu} {L : List Nat} :
    ∀ {s s' : Mmu}, resetFold orig s L = .ok s' →
    s'.arena_size = s.arena_size ∧ s'.cur_alc = s.cur_alc ∧
    s'.dirty = s.dirty ∧ s'.dirty_bitmap.length = s.dirty_bitmap.length := by
  induction L with
  | nil =>
    intro s s' h
    unfold resetFold at h
    have h2 : s = s' := (Except.ok.injEq _ _).mp h
    rw [h2]
    exact ⟨rfl, rfl, rfl, rfl⟩
  | cons b bs ih =>
    intro s s' h
    unfold resetFold at h
    split at h
    · exact absurd h (by simp)
    · next s1 heq =>
      obtain ⟨-, -, -, -, hrec⟩ := resetStep_ok_elim heq
      obtain ⟨e1, e2, e3, e4⟩ := ih h
      rw [hrec] at e1 e2 e3 e4
      refine ⟨e1, e2, e3, ?_⟩
      rw [e4]
      exact List.length_set ..

/-- Throughout the reset loop, every byte either keeps its value or is
replaced by the parent's value (memory and permission move together). -/
theorem resetFold_mem_or {orig : Mmu} {L : List Nat} :
    ∀ {s s' : Mmu}, resetFold orig s L = .ok s' → ∀ v : Nat,
    (s'.memory v = s.memory v ∧ s'.permissions v = s.permissions v) ∨
    (s'.memory v = orig.memory v ∧ s'.permissions v = orig.permissions v) := by
  induction L with
  | nil =>
    intro s s' h v
    unfold resetFold at h
    have h2 : s = s' := (Except.ok.injEq _ _).mp h
    rw [← h2]
    exact Or.inl ⟨rfl, rfl⟩
  | cons b bs ih =>
    intro s s' h v
    unfold resetFold at h
    split at h
    · exact absurd h (by simp)
    · next s1 heq =>
      obtain ⟨-, -, -, -, hrec⟩ := resetStep_ok_elim heq
      rcases ih h v with ⟨h1, h2⟩ | h1
      · rw [hrec] at h1 h2
        simp only [] at h1 h2
        by_cases hv : (b * DIRTY_BLOCK_SIZE) % WORD ≤ v ∧
            v < ((b + 1) * DIRTY_BLOCK_SIZE) % WORD
        · rw [if_pos hv] at h1 h2
          exact Or.inr ⟨h1, h2⟩
        · rw [if_neg hv] at h1 h2
          exact Or.inl ⟨h1, h2⟩
      · exact Or.inr h1

/-- Once a byte equals the parent's, it still does after the loop. -/
theorem resetFold_pres_orig {orig s s' : Mmu} {L : List Nat}
    (h : resetFold orig s L = .ok s') (v : Nat)
    (hm : s.memory v = orig.memory v)
    (hp : s.permissions v = orig.permissions v) :
    s'.memory v = orig.memory v ∧ s'.permissions v = orig.permissions v := by
  rcases resetFold_mem_or h v with ⟨h1, h2⟩ | h1
  · exact ⟨h1.trans hm, h2.trans hp⟩
  · exact h1

/-- Every byte of every block listed in the loop's input is restored
from the parent. -/
theorem resetFold_restores {orig : Mmu} {L : List Nat} :
    ∀ {s s' : Mmu}, resetFold orig s L = .ok s' → ∀ b ∈ L, ∀ v : Nat,
    (b * DIRTY_BLOCK_SIZE) % WORD ≤ v →
    v < ((b + 1) * DIRTY_BLOCK_SIZE) % WORD →
    s'.memory v = orig.memory v ∧ s'.permissions v = orig.permissions v := by
  induction L with
  | nil => intro s s' h b hb; cases hb
  | cons b0 bs ih =>
    intro s s' h b hb v hv1 hv2
    unfold resetFold at h
    split at h
    · exact absurd h (by simp)
    · next s1 heq =>
      obtain ⟨-, -, -, -, hrec⟩ := resetStep_ok_elim heq
      rcases List.mem_cons.mp hb with hb0 | hbs
      · subst hb0
        refine resetFold_pres_orig h v ?_ ?_
        · rw [hrec]
          simp only []
          rw [if_pos ⟨hv1, hv2⟩]
        · rw [hrec]
          simp only []
          rw [if_pos ⟨hv1, hv2⟩]
      · exact ih h b hbs v hv1 hv2

/-- Slice validity of every block processed by a successful reset loop. -/
theorem resetFold_valid {orig : Mmu} {L : List Nat} :
    ∀ {s s' : Mmu}, resetFold orig s L = .ok s' → ∀ b ∈ L,
    (b * DIRTY_BLOCK_SIZE) % WORD ≤ ((b + 1) * DIRTY_BLOCK_SIZE) % WORD ∧
    ((b + 1) * DIRTY_BLOCK_SIZE) % WORD ≤ s.arena_size ∧
    ((b + 1) * DIRTY_BLOCK_SIZE) % WORD ≤ orig.arena_size := by
  induction L with
  | nil => intro s s' h b hb; cases hb
  | cons b0 bs ih =>
    intro s s' h b hb
    unfold resetFold at h
    split at h
    · exact absurd h (by simp)
    · next s1 heq =>
      obtain ⟨-, hv1, hv2, hv3, hrec⟩ := resetStep_ok_elim heq
      rcases List.mem_cons.mp hb with hb0 | hbs
      · subst hb0
        exact ⟨hv1, hv2, hv3⟩
      · have harena : s1.arena_size = s.arena_size := by rw [hrec]
        obtain ⟨g1, g2, g3⟩ := ih h b hbs
        exact ⟨g1, harena ▸ g2, g3⟩

/-- Each bitmap word either keeps its value or has been zeroed. -/
theorem resetFold_bm_or {orig : Mmu} {L : List Nat} :
    ∀ {s s' : Mmu}, resetFold orig s L = .ok s' → ∀ w : Nat,
    s'.dirty_bitmap.getD w 0 = s.dirty_bitmap.getD w 0 ∨
    s'.dirty_bitmap.getD w 0 = 0 := by
  induction L with
  | nil =>
    intro s s' h w
    unfold resetFold at h
    have h2 : s = s' := (Except.ok.injEq _ _).mp h
    rw [← h2]
    exact Or.inl rfl
  | cons b bs ih =>
    intro s s' h w
    unfold resetFold at h
    split at h
    · exact absurd h (by simp)
    · next s1 heq =>
      obtain ⟨hlt, -, -, -, hrec⟩ := resetStep_ok_elim heq
      have hs1 : s1.dirty_bitmap = s.dirty_bitmap.set (b / 64) 0 := by rw [hrec]
      rcases ih h w with h1 | h1
      · rw [hs1] at h1
        by_cases hw : b / 64 = w
        · subst hw
          rw [getD_set_self _ _ _ hlt] at h1
          exact Or.inr h1
        · rw [getD_set_ne _ _ _ _ hw] at h1
          exact Or.inl h1
      · exact Or.inr h1

/-- The word of every block in the loop's input ends up zero. -/
theorem resetFold_bm_zeroed {orig : Mmu} {L : List Nat} :
    ∀ {s s' : Mmu}, resetFold orig s L = .ok s' → ∀ b ∈ L,
    s'.dirty_bitmap.getD (b / 64) 0 = 0 := by
  induction L with
  | nil => intro s s' h b hb; cases hb
  | cons b0 bs ih =>
    intro s s' h b hb
    unfold resetFold at h
    split at h
    · exact absurd h (by simp)
    · next s1 heq =>
      obtain ⟨hlt, -, -, -, hrec⟩ := resetStep_ok_elim heq
      rcases List.mem_cons.mp hb with hb0 | hbs
      · subst hb0
        have hz : s1.dirty_bitmap.getD (b / 64) 0 = 0 := by
          rw [hrec]
          simp only []
          exact getD_set_self _ _ _ hlt
        rcases resetFold_bm_or h (b / 64) with h1 | h1
        · rw [h1, hz]
        · exact h1
      · exact ih h b hbs

/-- Inversion of a successful `reset`. -/
theorem reset_ok_elim {m orig m' : Mmu} (h : m.reset orig = .ok m') :
    ∃ s', resetFold orig m m.dirty = .ok s' ∧ m' = { s' with dirty := [] } := by
  unfold Mmu.reset at h
  split at h
  · exact absurd h (by simp)
  · next s heq =>
    exact ⟨s, heq, ((Except.ok.injEq _ _).mp h).symm⟩

/-- `reset` preserves the dirty-tracker correspondence (it empties both
the list and — via whole-word zeroing — every set bit). -/
theorem dirtyInv_reset {m orig m' : Mmu} (hinv : dirtyInv m)
    (h : m.reset orig = .ok m') : dirtyInv m' := by
  obtain ⟨s', hfold, hrec⟩ := reset_ok_elim h
  have hd : m'.dirty = [] := by rw [hrec]
  have hbm : m'.dirty_bitmap = s'.dirty_bitmap := by rw [hrec]
  refine ⟨hd ▸ List.nodup_nil, fun b => iff_of_false (by rw [hd]; simp) ?_⟩
  intro hbs
  rw [hbm] at hbs
  have hne : s'.dirty_bitmap.getD (b / 64) 0 ≠ 0 := by
    intro hz
    unfold bitSet at hbs
    rw [hz] at hbs
    simp at hbs
  rcases resetFold_bm_or hfold (b / 64) with h1 | h1
  · have h2 : bitSet m.dirty_bitmap b := by
      unfold bitSet at hbs ⊢
      rw [h1] at hbs
      exact hbs
    have h3 : b ∈ m.dirty := (hinv.2 b).mpr h2
    exact hne (resetFold_bm_zeroed hfold b h3)
  · exact hne h1

/-- A successful write never changes the arena size or the cursor. -/
theorem write_from_fields {m : Mmu} {addr size : Nat} {buf : List Nat}
    {m' : Mmu} (h : m.write_from addr buf size = .ok m') :
    m'.arena_size = m.arena_size ∧ m'.cur_alc = m.cur_alc := by
  obtain ⟨-, -, -, -, -, st, -, hrec⟩ := write_from_ok_elim h
  rw [hrec]
  exact ⟨rfl, rfl⟩

/-!
### Concrete states used by the example instances

A 128 KiB arena (32 dirty blocks, one bitmap word), with one 8 KiB
allocation at the initial cursor `0x10000`.
-/

/-- A fresh 128 KiB MMU. -/
def arena0 : Mmu := NewMmu 131072

/-- `arena0` after `allocate(8192)`: permissions `RAW|WRITE` on
`[0x10000, 0x12000)`, `cur_alc = 0x12000`. -/
def alloc1 : Mmu := exGetA arena0 (arena0.allocate 8192)

/-- C5: After every access-gate operation (write, read, allocate,
set_permission, fork, reset — and at creation), the dirty list and
dirty_bitmap agree: every block in the dirty list has its bit set, every
set bit's block appears in the list, and the list has no duplicates
(each block appears exactly once). -/
theorem C5_dirty_list_bitmap_agree :
    (∀ size : Nat, dirtyInv (NewMmu size)) ∧
    (∀ m : Mmu, dirtyInv m.fork) ∧
    (∀ (m : Mmu) (addr : Nat) (buf : List Nat) (size : Nat) (m' : Mmu),
      dirtyInv m → m.write_from addr buf size = .ok m' → dirtyInv m') ∧
    (∀ (m : Mmu) (addr buflen exp_perms : Nat),
      dirtyInv m → (m.read_into_perms addr buflen exp_perms).isOk → dirtyInv m) ∧
    (∀ (m : Mmu) (size base : Nat) (m' : Mmu),
      dirtyInv m → m.allocate size = .ok (base, m') → dirtyInv m') ∧
    (∀ (m : Mmu) (addr size perm : Nat) (m' : Mmu),
      dirtyInv m → m.set_permission addr size perm = .ok m' → dirtyInv m') ∧
    (∀ m orig m' : Mmu, dirtyInv m → m.reset orig = .ok m' → dirtyInv m') :=
  ⟨dirtyInv_NewMmu, dirtyInv_fork,
   fun _ _ _ _ _ hi h => dirtyInv_write hi h,
   fun _ _ _ _ hi _ => hi,
   fun _ _ _ _ hi h => dirtyInv_allocate hi h,
   fun _ _ _ _ _ hi h => dirtyInv_set_permission hi h,
   fun _ _ _ hi h => dirtyInv_reset hi h⟩

/-- C5 instantiated: the correspondence holds after allocating 8 KiB in
a fresh 128 KiB arena and then writing 8 bytes across a block boundary. -/
theorem C5_dirty_list_bitmap_agree_witness :
    dirtyInv (exGet alloc1 (alloc1.write_from 69628 (List.replicate 8 65) 8)) :=
  C5_dirty_list_bitmap_agree.2.2.1 alloc1 69628 (List.replicate 8 65) 8 _
    (dirtyInv_allocate (dirtyInv_NewMmu 131072)
      (show arena0.allocate 8192 = .ok (65536, alloc1) from rfl))
    rfl

/-- The marking loop can only fail with the index-out-of-range panic. -/
theorem markFold_error {bs : Nat} {L : List Nat} :
    ∀ {st : List Nat × List Nat} {e : MErr},
    markFold bs st L = .error e → e = .indexRange := by
  induction L with
  | nil => intro st e h; exact absurd h (by simp [markFold])
  | cons b rest ih =>
    intro st e h
    unfold markFold at h
    split at h
    · next e2 heq =>
      injection h with h2
      unfold markStep at heq
      split_ifs at heq
      injection heq with h3
      rw [← h2, ← h3]
    · next st2 heq => exact ih h

/-- Extract the state carried by a failing mutating operation. -/
def exErrState (d : Mmu) : Except (MErr × Mmu) Mmu → Mmu
  | .error (_, s) => s
  | .ok _ => d

/-- C3: whenever a write fails with OutOfBounds, UnallocatedWrite or
WriteDenied, the MMU state is completely unchanged — the error state
equals the pre-call state, so nothing was copied and nothing was marked
dirty. -/
theorem C3_failed_write_no_side_effects (m : Mmu) (addr : Nat)
    (buf : List Nat) (size : Nat) (e : MErr) (m2 : Mmu)
    (h : m.write_from addr buf size = .error (e, m2))
    (he : e = .oobWrite ∨ e = .unallocWrite ∨ e = .writeDenied) :
    m2 = m := by
  simp only [Mmu.write_from] at h
  split_ifs at h with h1 h2 h3 h4 h5 h6
  · injection h with hA; injection hA with hB hC; exact hC.symm
  · injection h with hA; injection hA with hB hC; exact hC.symm
  · injection h with hA; injection hA with hB hC; exact hC.symm
  · injection h with hA; injection hA with hB hC; exact hC.symm
  · split at h
    · next e2 heq =>
      injection h with hA
      injection hA with hB hC
      have h9 : e2 = .indexRange := markFold_error heq
      rw [← hB, h9] at he
      rcases he with h10 | h10 | h10 <;> cases h10
    · exact absurd h (by simp)
  · split at h
    · next e2 heq =>
      injection h with hA
      injection hA with hB hC
      have h9 : e2 = .indexRange := markFold_error heq
      rw [← hB, h9] at he
      rcases he with h10 | h10 | h10 <;> cases h10
    · exact absurd h (by simp)
  · injection h with hA; injection hA with hB hC; exact hC.symm

/-- C3 instantiated: a denied write on a fresh arena (no WRITE bit at
the target) hands back exactly the pre-call state. -/
theorem C3_failed_write_no_side_effects_witness :
    exErrState arena0 (arena0.write_from 100 [1] 1) = arena0 :=
  C3_failed_write_no_side_effects arena0 100 [1] 1 .writeDenied
    (exErrState arena0 (arena0.write_from 100 [1] 1)) rfl
    (Or.inr (Or.inr rfl))

/-- C9 counterexample: with `addr = 2^64 - 1`, `size = 2` on a 16-byte
arena, the mathematical sum `addr + size` exceeds the arena size, yet
`set_permission` succeeds — Go's `addr+size` wraps to 1 and passes the
check (and the permission loop then runs zero iterations). -/
theorem C9_counterexample :
    ((NewMmu 16).set_permission (WORD - 1) 2 1).isOk = true ∧
    (WORD - 1) + 2 > (NewMmu 16).arena_size ∧
    (exGet (NewMmu 16) ((NewMmu 16).set_permission (WORD - 1) 2 1)).permissions 0
      = (NewMmu 16).permissions 0 := by
  refine ⟨by decide, by decide, by decide⟩

/-- C9 amended: `set_permission(addr, size, perm)` fails — always with
OutOfBounds — exactly when the WRAPPED sum `(addr + size) mod 2^64`
exceeds `arena_size`, and on failure the carried state is the unchanged
pre-call state. -/
theorem C9_set_permission_bounds (m : Mmu) (addr size perm : Nat) :
    ((m.set_permission addr size perm).isOk = true ↔
      (addr + size) % WORD ≤ m.arena_size) ∧
    (∀ e m2, m.set_permission addr size perm = .error (e, m2) →
      e = .oobPerm ∧ m2 = m) := by
  constructor
  · constructor
    · intro hok
      by_contra hc
      have hgt : (addr + size) % WORD > m.arena_size := Nat.lt_of_not_le hc
      simp only [Mmu.set_permission] at hok
      rw [if_pos hgt] at hok
      exact absurd hok (by simp [Except.isOk, Except.toBool])
    · intro hle
      simp only [Mmu.set_permission]
      rw [if_neg (Nat.not_lt.mpr hle)]
      rfl
  · intro e m2 h
    have h2 := set_permission_error_elim h
    exact ⟨h2.1, h2.2.1⟩

/-- C9 amended, instantiated at a failing call: `addr = size = 10` on a
16-byte arena fails with OutOfBounds and carries the unchanged state. -/
theorem C9_set_permission_bounds_witness :
    MErr.oobPerm = MErr.oobPerm ∧ NewMmu 16 = NewMmu 16 :=
  (C9_set_permission_bounds (NewMmu 16) 10 10 1).2 .oobPerm (NewMmu 16) rfl

/-- A 16-byte arena whose first four permission bytes are `READ` only. -/
def c7m : Mmu := exGet (NewMmu 16) ((NewMmu 16).set_permission 0 4 PERM_READ)

/-- C7 counterexample: a `read_with` whose mask is `READ|WRITE` succeeds
on bytes that carry only `READ` — the source uses any-bit semantics, so
the claimed all-bits-set check does not describe it. -/
theorem C7_counterexample :
    (c7m.read_into_perms 0 4 (PERM_READ ||| PERM_WRITE)).isOk = true ∧
    ¬ (∀ i < 4, (c7m.permissions (0 + i)) &&& (PERM_READ ||| PERM_WRITE)
        = PERM_READ ||| PERM_WRITE) := by
  refine ⟨by decide, by decide⟩

/-- C7 amended: the per-byte check of `read_into_perms` succeeds iff
every byte in range satisfies `(perm &&& mask) ≠ 0` (any-bit
semantics); with a bad range or a failed check the call returns an
error and no bytes (the state is never touched by a read). -/
theorem C7_read_with_any_bit (m : Mmu) (addr buflen exp_perms : Nat)
    (h1 : (addr + buflen) % WORD ≤ m.arena_size)
    (h2 : addr ≤ (addr + buflen) % WORD) :
    (m.read_into_perms addr buflen exp_perms).isOk = true ↔
      ∀ i < (addr + buflen) % WORD - addr,
        (m.permissions (addr + i)) &&& exp_perms ≠ 0 := by
  simp only [Mmu.read_into_perms]
  rw [if_neg (Nat.not_lt.mpr h1), if_neg (Nat.not_lt.mpr h2)]
  by_cases hp : ∀ i < (addr + buflen) % WORD - addr,
      (m.permissions (addr + i)) &&& exp_perms ≠ 0
  · rw [if_neg (not_not_intro hp)]
    exact iff_of_true rfl hp
  · rw [if_pos hp]
    exact iff_of_false (by simp [Except.isOk, Except.toBool]) hp

/-- C7 amended, instantiated: the any-bit check passes on `READ`-only
bytes with mask `READ|WRITE`. -/
theorem C7_read_with_any_bit_witness :
    (c7m.read_into_perms 0 4 (PERM_READ ||| PERM_WRITE)).isOk = true :=
  (C7_read_with_any_bit c7m 0 4 (PERM_READ ||| PERM_WRITE)
    (by decide) (by decide)).mpr (by decide)

/-- A zero-length write still visits exactly one block: `addr / B`. -/
theorem blocksOf_zero (addr : Nat) (haddr : addr < WORD) :
    blocksOf addr 0 = [addr / DIRTY_BLOCK_SIZE] := by
  simp only [blocksOf, Nat.add_zero, Nat.mod_eq_of_lt haddr,
    Nat.add_sub_cancel_left]
  rfl

/-- C8 counterexample: a zero-length write to an address beyond
`cur_alc` (here 70000 > 0x10000 on a fresh 128 KiB arena) fails, so the
claim "a zero-length write never returns an error" is false. -/
theorem C8_counterexample :
    ((NewMmu 131072).write_from 70000 [] 0).isOk = false := by decide

/-- C8 amended: a zero-length write succeeds iff `addr ≤ arena_size`,
`addr ≤ cur_alc` and the bitmap word of `addr / B` exists; on success,
memory, permissions, `cur_alc` and the arena size are unchanged, but
block `addr / B` ends up marked in the dirty bitmap (and is appended to
the dirty list if its bit was clear) — the marking loop runs once even
for an empty buffer. -/
theorem C8_zero_length_write (m : Mmu) (addr : Nat) (haddr : addr < WORD) :
    ((m.write_from addr [] 0).isOk = true ↔
      addr ≤ m.arena_size ∧ addr ≤ m.cur_alc ∧
      addr / DIRTY_BLOCK_SIZE / 64 < m.dirty_bitmap.length) ∧
    (∀ m', m.write_from addr [] 0 = .ok m' →
      m'.memory = m.memory ∧ m'.permissions = m.permissions ∧
      m'.cur_alc = m.cur_alc ∧ m'.arena_size = m.arena_size ∧
      bitSet m'.dirty_bitmap (addr / DIRTY_BLOCK_SIZE)) := by
  have he : (addr + 0) % WORD = addr := by
    rw [Nat.add_zero]; exact Nat.mod_eq_of_lt haddr
  have hblocks : blocksOf addr 0 = [addr / DIRTY_BLOCK_SIZE] :=
    blocksOf_zero addr haddr
  constructor
  · constructor
    · intro hok
      cases hw : m.write_from addr [] 0 with
      | error e =>
        rw [hw] at hok
        exact absurd hok (by simp [Except.isOk, Except.toBool])
      | ok m' =>
        obtain ⟨g1, g2, -, -, -, st, hmf, -⟩ := write_from_ok_elim hw
        rw [he] at g1 g2
        refine ⟨g1, g2, ?_⟩
        rw [show ([] : List Nat).length = 0 from rfl, hblocks] at hmf
        rcases markFold_ok_cases _ _ _ _ hmf with ⟨-, hor⟩ | ⟨b, rest, -, -, hlt, -⟩
        · rcases hor with hnil | hbs
          · cases hnil
          · have hne : m.dirty_bitmap.getD (addr / DIRTY_BLOCK_SIZE / 64) 0 ≠ 0 := by
              intro hz
              have hbs2 : (m.dirty_bitmap.getD (addr / DIRTY_BLOCK_SIZE / 64) 0) &&&
                  (1 <<< (addr / DIRTY_BLOCK_SIZE % 64)) ≠ 0 := hbs
              rw [hz] at hbs2
              simp at hbs2
            exact getD_ne_zero_lt _ _ hne
        · exact hlt
    · rintro ⟨g1, g2, g3⟩
      simp only [Mmu.write_from, he]
      rw [if_neg (Nat.not_lt.mpr g1), if_neg (Nat.not_lt.mpr g2),
        if_neg (by simp), if_neg (Nat.lt_irrefl addr),
        if_neg (not_not_intro (fun i hi => absurd hi (by omega)))]
      rw [show ([] : List Nat).length = 0 from rfl, hblocks]
      by_cases hb : bitSet m.dirty_bitmap (addr / DIRTY_BLOCK_SIZE)
      · rw [markFold_of_set (addr / DIRTY_BLOCK_SIZE) (m.dirty, m.dirty_bitmap)
          [addr / DIRTY_BLOCK_SIZE] hb]
        rfl
      · rw [markFold_of_clear (addr / DIRTY_BLOCK_SIZE) (m.dirty, m.dirty_bitmap)
          (addr / DIRTY_BLOCK_SIZE) [] g3 (of_not_not hb)]
        rfl
  · intro m' hw
    obtain ⟨-, -, -, -, -, st, hmf, hrec⟩ := write_from_ok_elim hw
    have hmem : m'.memory = m.memory := by
      rw [hrec]
      funext v
      show (if addr ≤ v ∧ v < (addr + 0) % WORD
        then ([] : List Nat).getD (v - addr) 0 else m.memory v) = m.memory v
      rw [if_neg (by rw [he]; omega)]
    have hperm : m'.permissions = m.permissions := by
      rw [hrec]
      show (if ∃ i < (addr + 0) % WORD - addr,
          (m.permissions (addr + i)) &&& PERM_RAW ≠ 0
        then _ else m.permissions) = m.permissions
      rw [if_neg (by rw [he, Nat.sub_self]; rintro ⟨i, hi, -⟩; omega)]
    refine ⟨hmem, hperm, by rw [hrec], by rw [hrec], ?_⟩
    have hbm : m'.dirty_bitmap = st.2 := by rw [hrec]
    rw [show ([] : List Nat).length = 0 from rfl, hblocks] at hmf
    rcases markFold_ok_cases _ _ _ _ hmf with ⟨hst, hor⟩ | ⟨b, rest, hL, -, hlt, hst⟩
    · rcases hor with hnil | hbs
      · cases hnil
      · rw [hbm, hst]
        exact hbs
    · have hb : b = addr / DIRTY_BLOCK_SIZE := by
        injection hL with hL1 hL2
        exact hL1.symm
      subst hb
      rw [hbm, hst]
      exact (bitSet_set_or _ _ hlt _).mpr (Or.inr rfl)

/-- C8 amended, instantiated: a zero-length write at the base of a live
allocation succeeds and marks block 16 in the bitmap. -/
theorem C8_zero_length_write_witness :
    (alloc1.write_from 65536 [] 0).isOk = true ∧
    bitSet (exGet alloc1 (alloc1.write_from 65536 [] 0)).dirty_bitmap 16 :=
  ⟨((C8_zero_length_write alloc1 65536 (by decide)).1).mpr (by decide),
   ((C8_zero_length_write alloc1 65536 (by decide)).2 _ rfl).2.2.2.2⟩

/-- `alloc1` after writing 8 bytes at `0x10ffc`, a range that spans
dirty blocks 16 and 17. -/
def c2w : Mmu := exGet alloc1 (alloc1.write_from 69628 (List.replicate 8 65) 8)

/-- C2 at the failing input: the 8-byte write at `0x10ffc` covers
blocks 16 and 17 (`block_start = 16`, `(addr+len-1)/B = 17`), the write
succeeds, but only block 16 is in the dirty list and only bit 16 is set
— bit 17 stays clear and 17 never enters the list, because the loop
body indexes the bitmap with `block_start` instead of the loop
variable. -/
theorem C2_write_dirty_marking_bug :
    (alloc1.write_from 69628 (List.replicate 8 65) 8).isOk = true ∧
    69628 / DIRTY_BLOCK_SIZE = 16 ∧
    (69628 + 8 - 1) / DIRTY_BLOCK_SIZE = 17 ∧
    c2w.dirty = [16] ∧
    bitSet c2w.dirty_bitmap 16 ∧
    ¬ bitSet c2w.dirty_bitmap 17 ∧
    17 ∉ c2w.dirty := by
  refine ⟨by decide, by decide, by decide, by decide, by decide, by decide,
    by decide⟩

/-- Extract the base address of a successful allocation. -/
def exBase (d : Nat) : Except (MErr × Mmu) (Nat × Mmu) → Nat
  | .ok p => p.1
  | .error _ => d

/-- C10 counterexample: `allocate(2^64 - 1)` on a fresh 128 KiB arena
"succeeds" (the aligned size wraps to 0), returns base `0x10000`, yet
sets no permission at all — the permission loop bound `base + size`
wraps below `base`.  So a successful allocate does not always set
`WRITE|RAW` on `[base, base+size)`. -/
theorem C10_counterexample :
    (arena0.allocate (WORD - 1)).isOk = true ∧
    exBase 0 (arena0.allocate (WORD - 1)) = 65536 ∧
    (exGetA arena0 (arena0.allocate (WORD - 1))).permissions 65536 = 0 ∧
    (1 : Nat) ≤ WORD - 1 := by
  refine ⟨by decide, by decide, by decide, by decide⟩

/-- C10 amended: provided `cur_alc + size` does not overflow the host
word, every successful `allocate(size)` returns `base = cur_alc`, sets
permission `WRITE|RAW` on exactly `[base, base + size)`, and leaves
every other permission byte — in particular the alignment padding
`[base+size, base+aligned)` — unchanged (guard bands keep having no
permissions). -/
theorem C10_allocate_sets_perms (m : Mmu) (size base : Nat) (m' : Mmu)
    (hno : m.cur_alc + size < WORD)
    (h : m.allocate size = .ok (base, m')) :
    base = m.cur_alc ∧
    (∀ v, base ≤ v → v < base + size →
      m'.permissions v = PERM_WRITE ||| PERM_RAW) ∧
    (∀ v, ¬ (base ≤ v ∧ v < base + size) →
      m'.permissions v = m.permissions v) ∧
    m'.memory = m.memory := by
  obtain ⟨hbase, -, -, hrec⟩ := allocate_ok_elim h
  have he : (m.cur_alc + size) % WORD = m.cur_alc + size := Nat.mod_eq_of_lt hno
  subst hbase
  refine ⟨rfl, ?_, ?_, by rw [hrec]⟩
  · intro v h1 h2
    rw [hrec]
    show (if m.cur_alc ≤ v ∧ v < (m.cur_alc + size) % WORD
      then PERM_RAW ||| PERM_WRITE else m.permissions v) = PERM_WRITE ||| PERM_RAW
    rw [if_pos ⟨h1, by rw [he]; exact h2⟩]
    decide
  · intro v hv
    rw [hrec]
    show (if m.cur_alc ≤ v ∧ v < (m.cur_alc + size) % WORD
      then PERM_RAW ||| PERM_WRITE else m.permissions v) = m.permissions v
    rw [if_neg (by rw [he]; exact hv)]

/-- C10 amended, instantiated on `allocate(8192)`: `WRITE|RAW` at the
base, untouched permissions right past the allocation. -/
theorem C10_allocate_sets_perms_witness :
    alloc1.permissions 65536 = PERM_WRITE ||| PERM_RAW ∧
    alloc1.permissions 73730 = arena0.permissions 73730 :=
  ⟨(C10_allocate_sets_perms arena0 8192 65536 alloc1 (by decide) rfl).2.1
      65536 (by decide) (by decide),
   (C10_allocate_sets_perms arena0 8192 65536 alloc1 (by decide) rfl).2.2.1
      73730 (by decide)⟩

/-- ORing in `READ` makes the byte readable and keeps `RAW`. -/
theorem or_read_keeps (x : Nat) (hx : x &&& PERM_RAW ≠ 0) :
    (x ||| PERM_READ) &&& PERM_READ ≠ 0 ∧
    (x ||| PERM_READ) &&& PERM_RAW ≠ 0 := by
  have h1 : PERM_READ = 2 ^ 0 := rfl
  have h8 : PERM_RAW = 2 ^ 3 := rfl
  rw [h8, and_pow_ne_zero] at hx
  constructor
  · rw [h1, and_pow_ne_zero, Nat.testBit_or]
    simp
  · rw [h1, h8, and_pow_ne_zero, Nat.testBit_or]
    simp [hx]

/-- C4: after every successful `write(addr, buf)` (no host-word
overflow of `addr + len(buf)`), each byte of the target range whose
permission had `RAW` before the call now also has `READ`, and its `RAW`
bit is left set. -/
theorem C4_raw_promotion (m : Mmu) (addr : Nat) (buf : List Nat) (m' : Mmu)
    (hno : addr + buf.length < WORD)
    (h : m.write addr buf = .ok m') :
    ∀ v, addr ≤ v → v < addr + buf.length →
      (m.permissions v) &&& PERM_RAW ≠ 0 →
      (m'.permissions v) &&& PERM_READ ≠ 0 ∧
      (m'.permissions v) &&& PERM_RAW ≠ 0 := by
  have h' : m.write_from addr buf buf.length = .ok m' := h
  obtain ⟨-, -, -, -, -, st, -, hrec⟩ := write_from_ok_elim h'
  have he : (addr + buf.length) % WORD = addr + buf.length :=
    Nat.mod_eq_of_lt hno
  intro v h1 h2 h3
  have hvr : v < (addr + buf.length) % WORD := by rw [he]; exact h2
  have hraw : ∃ i < (addr + buf.length) % WORD - addr,
      (m.permissions (addr + i)) &&& PERM_RAW ≠ 0 := by
    refine ⟨v - addr, by rw [he]; omega, ?_⟩
    rw [Nat.add_sub_cancel' h1]
    exact h3
  have hp : m'.permissions v = (m.permissions v) ||| PERM_READ := by
    rw [hrec]
    show ((if ∃ i < (addr + buf.length) % WORD - addr,
        (m.permissions (addr + i)) &&& PERM_RAW ≠ 0
      then fun w =>
        if (addr ≤ w ∧ w < (addr + buf.length) % WORD) ∧
            (m.permissions w) &&& PERM_RAW ≠ 0
        then (m.permissions w) ||| PERM_READ
        else m.permissions w
      else m.permissions) v) = (m.permissions v) ||| PERM_READ
    rw [if_pos hraw]
    show (if (addr ≤ v ∧ v < (addr + buf.length) % WORD) ∧
        (m.permissions v) &&& PERM_RAW ≠ 0
      then (m.permissions v) ||| PERM_READ
      else m.permissions v) = (m.permissions v) ||| PERM_READ
    rw [if_pos ⟨⟨h1, hvr⟩, h3⟩]
  rw [hp]
  exact or_read_keeps (m.permissions v) h3

/-- `alloc1` after writing the four bytes `7, 8, 9, 10` at the
allocation base. -/
def c4m2 : Mmu := exGet alloc1 (alloc1.write 65536 [7, 8, 9, 10])

/-- C4 instantiated: the freshly allocated byte at the base (which was
`RAW|WRITE`) is readable after the write, with `RAW` still set. -/
theorem C4_raw_promotion_witness :
    (c4m2.permissions 65536) &&& PERM_READ ≠ 0 ∧
    (c4m2.permissions 65536) &&& PERM_RAW ≠ 0 :=
  C4_raw_promotion alloc1 65536 [7, 8, 9, 10] c4m2 (by decide) rfl
    65536 (by decide) (by decide) (by decide)

theorem range_map_getD (l : List Nat) :
    (List.range l.length).map (fun i => l.getD i 0) = l := by
  apply List.ext_getElem
  · simp
  · intro i h1 h2
    simp [List.getD_eq_getElem?_getD, List.getElem?_eq_getElem h2]

/-- C6: if `write(addr, buf)` succeeds and every byte of the target
range carries `READ` after the write's RAW promotion, an immediately
following `read(addr, out)` with `len(out) = len(buf)` succeeds and
returns exactly `buf`. -/
theorem C6_write_read_roundtrip (m : Mmu) (addr : Nat) (buf : List Nat)
    (m' : Mmu) (hno : addr + buf.length < WORD)
    (hw : m.write addr buf = .ok m')
    (hr : ∀ v, addr ≤ v → v < addr + buf.length →
      (m'.permissions v) &&& PERM_READ ≠ 0) :
    m'.read_into addr buf.length = .ok buf := by
  have hw' : m.write_from addr buf buf.length = .ok m' := hw
  obtain ⟨g1, -, -, -, -, st, -, hrec⟩ := write_from_ok_elim hw'
  have he : (addr + buf.length) % WORD = addr + buf.length :=
    Nat.mod_eq_of_lt hno
  have harena : m'.arena_size = m.arena_size := by rw [hrec]
  have hlen : (addr + buf.length) % WORD - addr = buf.length := by
    rw [he]; omega
  have hperm : ∀ i < (addr + buf.length) % WORD - addr,
      (m'.permissions (addr + i)) &&& PERM_READ ≠ 0 := by
    intro i hi
    rw [hlen] at hi
    exact hr (addr + i) (Nat.le_add_right addr i) (by omega)
  simp only [Mmu.read_into, Mmu.read_into_perms, harena]
  rw [if_neg (Nat.not_lt.mpr g1),
    if_neg (Nat.not_lt.mpr (by rw [he]; exact Nat.le_add_right addr buf.length)),
    if_neg (not_not_intro hperm), hlen]
  congr 1
  have hmem : ∀ i ∈ List.range buf.length,
      m'.memory (addr + i) = buf.getD i 0 := by
    intro i hi
    have hi2 : i < buf.length := List.mem_range.mp hi
    rw [hrec]
    show (if addr ≤ addr + i ∧ addr + i < (addr + buf.length) % WORD
      then buf.getD (addr + i - addr) 0
      else m.memory (addr + i)) = buf.getD i 0
    rw [if_pos ⟨Nat.le_add_right addr i, by rw [he]; omega⟩,
      Nat.add_sub_cancel_left]
  rw [List.map_congr_left hmem]
  exact range_map_getD buf

/-- C6 instantiated: writing `7, 8, 9, 10` at the base of a fresh
allocation and reading four bytes back returns exactly those bytes. -/
theorem C6_write_read_roundtrip_witness :
    c4m2.read_into 65536 4 = .ok [7, 8, 9, 10] :=
  C6_write_read_roundtrip alloc1 65536 [7, 8, 9, 10] c4m2 (by decide) rfl
    (by
      intro v h1 h2
      have h2b : v < 65540 := by simpa using h2
      have hv : v = 65536 ∨ v = 65537 ∨ v = 65538 ∨ v = 65539 := by omega
      rcases hv with h | h | h | h <;> subst h <;> decide)

/-- Gate operations a fuzz case may run on a fork: checked writes and
reads (`write(addr, buf)` / `read(addr, out)` with the callers' size =
len(buf) convention). -/
inductive GOp where
  | wr (addr : Nat) (buf : List Nat)
  | rd (addr buflen : Nat)

/-- A write confined to a single dirty block (reads always qualify). -/
def singleBlock : GOp → Prop
  | .wr addr buf =>
    addr + buf.length ≤ (addr / DIRTY_BLOCK_SIZE + 1) * DIRTY_BLOCK_SIZE
  | .rd _ _ => True

instance (op : GOp) : Decidable (singleBlock op) := by
  cases op <;> simp only [singleBlock] <;> infer_instance

/-- Run one gate operation (a read leaves the state as it was). -/
def Mmu.applyOp (m : Mmu) : GOp → Except (MErr × Mmu) Mmu
  | .wr addr buf => m.write addr buf
  | .rd addr buflen =>
    match m.read_into addr buflen with
    | .error e => .error (e, m)
    | .ok _ => .ok m

/-- Run a sequence of gate operations. -/
def applyOps (m : Mmu) : List GOp → Except (MErr × Mmu) Mmu
  | [] => .ok m
  | op :: rest =>
    match m.applyOp op with
    | .error e => .error e
    | .ok m2 => applyOps m2 rest

/-- The state of a fork relative to its parent: same arena size, a
coherent dirty tracker, and every byte either still equal to the
parent's or covered by a dirty block. -/
def resetInv (parent m : Mmu) : Prop :=
  m.arena_size = parent.arena_size ∧ dirtyInv m ∧
  ∀ v, v < parent.arena_size →
    (m.memory v = parent.memory v ∧ m.permissions v = parent.permissions v) ∨
    v / DIRTY_BLOCK_SIZE ∈ m.dirty

/-- A successful single-block write preserves `resetInv`: the block it
touches is (or already was) in the dirty list. -/
theorem resetInv_write {parent m m' : Mmu} {addr : Nat} {buf : List Nat}
    (hinv : resetInv parent m)
    (hsb : addr + buf.length ≤ (addr / DIRTY_BLOCK_SIZE + 1) * DIRTY_BLOCK_SIZE)
    (h : m.write addr buf = .ok m') :
    resetInv parent m' := by
  obtain ⟨harena, hdinv, hpt⟩ := hinv
  have h' : m.write_from addr buf buf.length = .ok m' := h
  obtain ⟨-, -, -, g4, -, st, -, hrec⟩ := write_from_ok_elim h'
  have harena' : m'.arena_size = m.arena_size := by rw [hrec]
  have hdirty_sub : ∀ b, b ∈ m.dirty → b ∈ m'.dirty := by
    rcases write_dirty_cases h' with ⟨hd, -, -⟩ | ⟨hd, -, -, -⟩
    · intro b hb; rw [hd]; exact hb
    · intro b hb; rw [hd]; exact List.mem_append_left _ hb
  have hbs_mem : addr / DIRTY_BLOCK_SIZE ∈ m'.dirty := by
    rcases write_dirty_cases h' with ⟨hd, -, hor⟩ | ⟨hd, -, -, -⟩
    · rcases hor with hnil | hbset
      · obtain ⟨rest, hcons⟩ := blocksOf_cons_of_le addr buf.length g4
        rw [hcons] at hnil
        cases hnil
      · rw [hd]
        exact (hdinv.2 _).mpr hbset
    · rw [hd]
      exact List.mem_append_right _ (by simp)
  refine ⟨by rw [harena', harena], dirtyInv_write hdinv h', ?_⟩
  intro v hv
  by_cases hin : addr ≤ v ∧ v < (addr + buf.length) % WORD
  · right
    have hb1 : (addr / DIRTY_BLOCK_SIZE) * DIRTY_BLOCK_SIZE ≤ addr :=
      Nat.div_mul_le_self addr _
    have hb2 : (addr + buf.length) % WORD ≤ addr + buf.length := Nat.mod_le _ _
    have hveq : v / DIRTY_BLOCK_SIZE = addr / DIRTY_BLOCK_SIZE := by
      have hdm := Nat.div_add_mod v DIRTY_BLOCK_SIZE
      have hm2 : v % DIRTY_BLOCK_SIZE < DIRTY_BLOCK_SIZE :=
        Nat.mod_lt _ (by decide)
      simp only [DIRTY_BLOCK_SIZE] at hsb hb1 hdm hm2 ⊢
      omega
    rw [hveq]
    exact hbs_mem
  · have hmem : m'.memory v = m.memory v := by
      rw [hrec]
      show (if addr ≤ v ∧ v < (addr + buf.length) % WORD
        then buf.getD (v - addr) 0 else m.memory v) = m.memory v
      rw [if_neg hin]
    have hperm : m'.permissions v = m.permissions v := by
      rw [hrec]
      by_cases hx : ∃ i < (addr + buf.length) % WORD - addr,
          (m.permissions (addr + i)) &&& PERM_RAW ≠ 0
      · show ((if ∃ i < (addr + buf.length) % WORD - addr,
            (m.permissions (addr + i)) &&& PERM_RAW ≠ 0
          then fun w =>
            if (addr ≤ w ∧ w < (addr + buf.length) % WORD) ∧
                (m.permissions w) &&& PERM_RAW ≠ 0
            then (m.permissions w) ||| PERM_READ
            else m.permissions w
          else m.permissions) v) = m.permissions v
        rw [if_pos hx]
        show (if (addr ≤ v ∧ v < (addr + buf.length) % WORD) ∧
            (m.permissions v) &&& PERM_RAW ≠ 0
          then (m.permissions v) ||| PERM_READ
          else m.permissions v) = m.permissions v
        rw [if_neg (fun hc => hin hc.1)]
      · show ((if ∃ i < (addr + buf.length) % WORD - addr,
            (m.permissions (addr + i)) &&& PERM_RAW ≠ 0
          then fun w =>
            if (addr ≤ w ∧ w < (addr + buf.length) % WORD) ∧
                (m.permissions w) &&& PERM_RAW ≠ 0
            then (m.permissions w) ||| PERM_READ
            else m.permissions w
          else m.permissions) v) = m.permissions v
        rw [if_neg hx]
    rcases hpt v hv with ⟨e1, e2⟩ | hmemd
    · exact Or.inl ⟨hmem.trans e1, hperm.trans e2⟩
    · exact Or.inr (hdirty_sub _ hmemd)

/-- Sequences of single-block writes and reads preserve `resetInv`. -/
theorem resetInv_applyOps (parent : Mmu) (ops : List GOp) :
    ∀ {m final : Mmu}, resetInv parent m → (∀ op ∈ ops, singleBlock op) →
    applyOps m ops = .ok final → resetInv parent final := by
  induction ops with
  | nil =>
    intro m final hinv hops h
    unfold applyOps at h
    exact ((Except.ok.injEq _ _).mp h) ▸ hinv
  | cons op rest ih =>
    intro m final hinv hops h
    unfold applyOps at h
    split at h
    · exact absurd h (by simp)
    · next m2 heq =>
      have hrest : ∀ o ∈ rest, singleBlock o :=
        fun o ho => hops o (List.mem_cons_of_mem _ ho)
      cases op with
      | wr addr buf =>
        have hsb := hops (.wr addr buf) (List.mem_cons_self _ _)
        exact ih (resetInv_write hinv hsb heq) hrest h
      | rd addr buflen =>
        have hm2 : m2 = m := by
          simp only [Mmu.applyOp] at heq
          split at heq
          · exact absurd heq (by simp)
          · exact ((Except.ok.injEq _ _).mp heq).symm
        exact ih (hm2 ▸ hinv) hrest h

/-- C1 counterexample data: fork a fresh 128 KiB MMU, let the child
allocate 4 bytes, then reset against the parent. -/
def c1child : Mmu := exGetA arena0 (arena0.fork.allocate 4)

/-- The child after `reset(parent)`. -/
def c1r : Mmu := exGet c1child (c1child.reset arena0)

/-- C1 counterexample: the child's `allocate` changed permissions
without marking anything dirty (`set_permission` does not dirty), so
after a successful `reset(parent)` the dirty list is empty but the
child's permission byte at `0x10000 < cur_alc` differs from the
parent's — the claimed equality fails. -/
theorem C1_counterexample :
    (arena0.fork.allocate 4).isOk = true ∧
    (c1child.reset arena0).isOk = true ∧
    c1r.dirty = [] ∧
    65536 < c1r.cur_alc ∧
    65536 < arena0.arena_size ∧
    c1r.permissions 65536 = 10 ∧
    arena0.permissions 65536 = 0 := by
  refine ⟨by decide, by decide, by decide, by decide, by decide, by decide,
    by decide⟩

/-- C1 amended: for a child forked from a parent (arena below `2^64`),
after any sequence of successful reads and successful writes each
confined to a single dirty block, a successful `reset(parent)` leaves
the child's dirty list empty and restores `memory[v]` and
`permissions[v]` to the parent's values at every arena address `v`
below `cur_alc`. -/
theorem C1_fork_reset_restores (parent child final r : Mmu)
    (ops : List GOp) (hW : parent.arena_size < WORD)
    (hchild : child = parent.fork)
    (hops : ∀ op ∈ ops, singleBlock op)
    (happly : applyOps child ops = .ok final)
    (hreset : final.reset parent = .ok r) :
    r.dirty = [] ∧
    ∀ v, v < r.cur_alc → v < parent.arena_size →
      r.memory v = parent.memory v ∧
      r.permissions v = parent.permissions v := by
  have hinv0 : resetInv parent child := by
    subst hchild
    refine ⟨rfl, dirtyInv_fork parent, ?_⟩
    intro v hv
    left
    constructor
    · show (if v < parent.arena_size then parent.memory v else 0) =
        parent.memory v
      rw [if_pos hv]
    · show (if v < parent.arena_size then parent.permissions v else 0) =
        parent.permissions v
      rw [if_pos hv]
  obtain ⟨harena, hdinv, hpt⟩ := resetInv_applyOps parent ops hinv0 hops happly
  obtain ⟨s', hfold, hrec⟩ := reset_ok_elim hreset
  have hrd : r.dirty = [] := by rw [hrec]
  have hrm : r.memory = s'.memory := by rw [hrec]
  have hrp : r.permissions = s'.permissions := by rw [hrec]
  refine ⟨hrd, ?_⟩
  intro v hvc hv
  rw [hrm, hrp]
  rcases hpt v hv with ⟨e1, e2⟩ | hd
  · exact resetFold_pres_orig hfold v e1 e2
  · have hx1 : (v / DIRTY_BLOCK_SIZE) * DIRTY_BLOCK_SIZE ≤ v :=
      Nat.div_mul_le_self v _
    have hx2 : v < (v / DIRTY_BLOCK_SIZE) * DIRTY_BLOCK_SIZE + DIRTY_BLOCK_SIZE := by
      have hdm := Nat.div_add_mod v DIRTY_BLOCK_SIZE
      have hm := Nat.mod_lt v (show 0 < DIRTY_BLOCK_SIZE by decide)
      simp only [DIRTY_BLOCK_SIZE] at hdm hm ⊢
      omega
    obtain ⟨hv1, -, -⟩ := resetFold_valid hfold (v / DIRTY_BLOCK_SIZE) hd
    have hvW : v < WORD := lt_trans hv hW
    have hxW : (v / DIRTY_BLOCK_SIZE) * DIRTY_BLOCK_SIZE < WORD :=
      Nat.lt_of_le_of_lt hx1 hvW
    have hs1 : ((v / DIRTY_BLOCK_SIZE) * DIRTY_BLOCK_SIZE) % WORD =
        (v / DIRTY_BLOCK_SIZE) * DIRTY_BLOCK_SIZE := Nat.mod_eq_of_lt hxW
    have hW2 : WORD = 18446744073709551616 := by decide
    have harg : (v / DIRTY_BLOCK_SIZE + 1) * DIRTY_BLOCK_SIZE < WORD := by
      by_contra hc
      push_neg at hc
      have heq : (v / DIRTY_BLOCK_SIZE + 1) * DIRTY_BLOCK_SIZE = WORD := by
        simp only [DIRTY_BLOCK_SIZE] at hc hxW ⊢
        omega
      rw [hs1, heq, Nat.mod_self] at hv1
      have hz : (v / DIRTY_BLOCK_SIZE) * DIRTY_BLOCK_SIZE = 0 :=
        Nat.le_zero.mp hv1
      simp only [DIRTY_BLOCK_SIZE] at heq hz
      rw [hW2] at heq
      omega
    have hs2 : ((v / DIRTY_BLOCK_SIZE + 1) * DIRTY_BLOCK_SIZE) % WORD =
        (v / DIRTY_BLOCK_SIZE + 1) * DIRTY_BLOCK_SIZE := Nat.mod_eq_of_lt harg
    refine resetFold_restores hfold (v / DIRTY_BLOCK_SIZE) hd v ?_ ?_
    · rw [hs1]
      exact hx1
    · rw [hs2]
      simp only [DIRTY_BLOCK_SIZE] at hx2 ⊢
      omega

/-- A fork of `alloc1` after one single-block write of two bytes at the
allocation base. -/
def c1sb : Mmu := exGet alloc1.fork (applyOps alloc1.fork [GOp.wr 65536 [7, 7]])

/-- That fork after `reset(alloc1)`. -/
def c1sbr : Mmu := exGet c1sb (c1sb.reset alloc1)

/-- C1 amended, instantiated: a single-block write followed by reset
empties the dirty list and restores the written byte and its permission
to the parent's values. -/
theorem C1_fork_reset_restores_witness :
    c1sbr.dirty = [] ∧
    c1sbr.memory 65536 = alloc1.memory 65536 ∧
    c1sbr.permissions 65536 = alloc1.permissions 65536 :=
  let T := C1_fork_reset_restores alloc1 alloc1.fork c1sb c1sbr
    [GOp.wr 65536 [7, 7]] (by decide) rfl (by decide) rfl rfl
  ⟨T.1, (T.2 65536 (by decide) (by decide)).1,
    (T.2 65536 (by decide) (by decide)).2⟩
